import Mathlib

/-!
Shallow embedding of the Tlist generic singly-linked list library
(`src/Tlist.c`, `src/Titerator.c`).

The list is modelled at the level of the values stored in the node chain,
together with an explicit representation of the `_tail` pointer and the
`_length` counter, because the source maintains `_tail` and `_length`
separately from the chain reachable from `_head` and they can fall out of
sync (this is exactly what several claims are about).

Conventions of the embedding:
* `LState α` is the state of a non-NULL `struct Lista` whose stored values
  are of type `α` (`α := Int` for an `INT` list, `α := String` for a
  `STRING` list, `α := Nat` reading the stored `void*` addresses for a `T`
  list, and so on).  The per-kind `va_arg` dispatch in `push`/`set`/`insert`
  only decides how many bytes to copy; at the level of stored values every
  branch builds a node holding the given value, so the operations are
  modelled once, polymorphically.
* `chain` lists the values of the nodes reachable from `_head`, in order.
* `tailPos` records where `_tail` points: `TailPos.null` for a NULL tail,
  `TailPos.inChain k` when `_tail` points at the node that currently sits
  at position `k` of the reachable chain, `TailPos.orphan` when `_tail`
  points at a live node that is no longer reachable from `_head`, and
  `TailPos.dangling` when `_tail` points at memory that has been freed.
  Pointer comparisons `temp == this->_tail` against an orphaned or dangling
  tail are modelled as false (no address reuse by the allocator).
* `length` is the `int _length` counter exactly as maintained by the code.
* Operations whose C execution would dereference NULL or freed memory
  return `Except.error CErr.ub`; operations that call `exit(EXIT_FAILURE)`
  return `Except.error CErr.fatal`.  `malloc` is assumed to succeed.
-/

namespace Tlist

/-- Abnormal outcomes of running an operation of the C library:
`fatal` models a deliberate `exit(EXIT_FAILURE)`, `ub` models undefined
behaviour (dereferencing a NULL or freed pointer). -/
inductive CErr where
  | fatal
  | ub
deriving DecidableEq, Repr

/-- Where the `_tail` pointer of a list points, relative to the chain of
nodes reachable from `_head`. -/
inductive TailPos where
  | null
  | inChain (k : Nat)
  | orphan
  | dangling
deriving DecidableEq, Repr

/-- State of a (non-NULL) `struct Lista`: the values on the node chain
reachable from `_head`, the position of `_tail`, and the `_length`
counter. -/
structure LState (α : Type) where
  chain : List α
  tailPos : TailPos
  length : Int
deriving DecidableEq

/-- Model of `newList(type)`: head and tail NULL, length 0. -/
def newListState (α : Type) : LState α := ⟨[], .null, 0⟩

/-- Model of `underPush(this, node)`: if `_head` is NULL the node becomes both head
and tail; otherwise the code writes `this->_tail->_nextNode = node` — a
NULL-pointer write if `_tail` is NULL, a use-after-free write if `_tail`
dangles, and an append to an unreachable chain if `_tail` is orphaned
(the reachable chain is unchanged in that case).  When `_tail` points at
chain position `k`, any nodes after position `k` become unreachable and
the new node is linked at position `k+1`.  `_length` is always
incremented. -/
def underPush {α : Type} (s : LState α) (v : α) : Except CErr (LState α) :=
  match s.chain with
  | [] => .ok ⟨[v], .inChain 0, s.length + 1⟩
  | _ :: _ =>
    match s.tailPos with
    | .null => .error .ub
    | .dangling => .error .ub
    | .orphan => .ok ⟨s.chain, .orphan, s.length + 1⟩
    | .inChain k => .ok ⟨s.chain.take (k + 1) ++ [v], .inChain (k + 1), s.length + 1⟩

/-- Model of `push(this, ...)` on a non-NULL list: every `va_arg` branch builds a
node from the given value (`newNode`) and calls `underPush`. -/
def push {α : Type} (s : LState α) (v : α) : Except CErr (LState α) :=
  underPush s v

/-- Model of `push` on a `STRING` list, taking a possibly-NULL `char *`:
`newNode` checks `val == NULL` and exits before any list mutation. -/
def pushCString (s : LState String) (v : Option String) : Except CErr (LState String) :=
  match v with
  | none => .error .fatal
  | some str => underPush s str

/-- Adjustment of `_tail` after the head node is unlinked and freed
(`pop` and `delete` at index 0): the code only resets `_tail` when the
new `_head` is NULL; otherwise positions renumber, and a tail that
pointed at the removed head now dangles. -/
def tailAfterHeadRemoval (t : TailPos) (newChainEmpty : Bool) : TailPos :=
  if newChainEmpty then .null
  else
    match t with
    | .inChain 0 => .dangling
    | .inChain (k + 1) => .inChain k
    | t => t

/-- Model of `pop(this)` on a non-NULL list: returns NULL on an empty list,
otherwise unlinks and frees the head node and returns its value. -/
def pop {α : Type} (s : LState α) : Option α × LState α :=
  match s.chain with
  | [] => (none, s)
  | v :: rest =>
    (some v, ⟨rest, tailAfterHeadRemoval s.tailPos rest.isEmpty, s.length - 1⟩)

/-- The scan loop of `get`: walk the chain with a counter `x`, returning
the value of the node at which `x == index`. -/
def scanGetAux {α : Type} (i x : Int) : List α → Option α
  | [] => none
  | v :: rest => if x = i then some v else scanGetAux i (x + 1) rest

/-- Model of `get(this, index)` on a non-NULL list: NULL on a negative index, else
the scan loop; NULL (after an error message) when the scan runs out. -/
def get {α : Type} (s : LState α) (i : Int) : Option α :=
  if i < 0 then none else scanGetAux i 0 s.chain

/-- The scan loop of `set`: replace the value of the node at which
`x == index`; an exhausted scan leaves the chain unchanged. -/
def scanSetAux {α : Type} (i x : Int) (v : α) : List α → List α
  | [] => []
  | w :: rest => if x = i then v :: rest else w :: scanSetAux i (x + 1) v rest

/-- Model of `set(this, index, ...)` on a non-NULL list, for every kind whose
overwrite is a plain `memcpy` or pointer replacement (`INT`, `FLOAT`,
`DOUBLE`, `T`): error and no change on a negative or out-of-range index,
in-place overwrite otherwise. -/
def set {α : Type} (s : LState α) (i : Int) (v : α) : LState α :=
  if i < 0 then s else { s with chain := scanSetAux i 0 v s.chain }

/-- The scan loop of `set` on a `STRING` list with a possibly-NULL
`char *` argument: at the target node the code first frees the old
buffer and then calls `strlen(chr)` — undefined behaviour when `chr` is
NULL, with the old buffer already gone. -/
def scanSetCStringAux (i x : Int) (v : Option String) :
    List String → Except CErr (List String)
  | [] => .ok []
  | w :: rest =>
    if x = i then
      match v with
      | none => .error .ub
      | some str => .ok (str :: rest)
    else (scanSetCStringAux i (x + 1) v rest).map (w :: ·)

/-- Model of `set(this, index, chr)` on a non-NULL `STRING` list with a
possibly-NULL `char *` source. -/
def setCString (s : LState String) (i : Int) (v : Option String) :
    Except CErr (LState String) :=
  if i < 0 then .ok s
  else (scanSetCStringAux i 0 v s.chain).map (fun c => { s with chain := c })

/-- Adjustment of `_tail` after the node at chain position `j ≥ 1` is
spliced out by `delete` or `pick`: the code sets `_tail` to the
predecessor exactly when the removed node was the tail
(`temp == this->_tail`); otherwise positions past `j` renumber. -/
def tailAfterSplice (t : TailPos) (j : Nat) : TailPos :=
  match t with
  | .inChain m =>
    if m = j then .inChain (j - 1)
    else if j < m then .inChain (m - 1)
    else .inChain m
  | t => t

/-- The scan loop of `delete` for `index ≥ 1`: at the node with
`x == index - 1`, a NULL `_nextNode` breaks out to the error path,
otherwise the next node is spliced out.  `none` is the fell-through
error path (list unchanged). -/
def scanDeleteAux {α : Type} (i x : Int) : List α → Option (List α)
  | [] => none
  | w :: rest =>
    if x = i - 1 then
      match rest with
      | [] => none
      | _ :: rest2 => some (w :: rest2)
    else (scanDeleteAux i (x + 1) rest).map (w :: ·)

/-- Model of `delete(this, index)` (the `remove` method) on a non-NULL list:
error and no change on a negative index; at index 0 the code reads
`temp->_nextNode` from the unchecked `_head` — undefined behaviour on an
empty list — and otherwise unlinks the head; for `index ≥ 1` the scan
loop splices, or reports out-of-bounds leaving the list unchanged. -/
def delete {α : Type} (s : LState α) (i : Int) : Except CErr (LState α) :=
  if i < 0 then .ok s
  else if i = 0 then
    match s.chain with
    | [] => .error .ub
    | _ :: rest =>
      .ok ⟨rest, tailAfterHeadRemoval s.tailPos rest.isEmpty, s.length - 1⟩
  else
    match scanDeleteAux i 0 s.chain with
    | none => .ok s
    | some c => .ok ⟨c, tailAfterSplice s.tailPos i.toNat, s.length - 1⟩

/-- The scan loop of `pick` for `index ≥ 1`: splices out the node after
the one with `x == index - 1`, provided that next node exists, and
returns its value together with the new chain. -/
def scanPickAux {α : Type} (i x : Int) : List α → Option (α × List α)
  | [] => none
  | w :: rest =>
    if x = i - 1 then
      match rest with
      | [] => none
      | t :: rest2 => some (t, w :: rest2)
    else (scanPickAux i (x + 1) rest).map (fun p => (p.1, w :: p.2))

/-- Model of `pick(this, index)` on a non-NULL list: NULL and no change on a
negative index, delegation to `pop` at index 0, otherwise the splice
scan; NULL and no change when the scan runs out. -/
def pick {α : Type} (s : LState α) (i : Int) : Option α × LState α :=
  if i < 0 then (none, s)
  else if i = 0 then pop s
  else
    match scanPickAux i 0 s.chain with
    | none => (none, s)
    | some (v, c) => (some v, ⟨c, tailAfterSplice s.tailPos i.toNat, s.length - 1⟩)

/-- The scan loop of `underInsert` for `index ≥ 1`: link the new value
after the node with `x == index - 1`; an exhausted scan inserts nothing
and increments nothing (no error message either). -/
def scanInsertAux {α : Type} (i x : Int) (v : α) : List α → Option (List α)
  | [] => none
  | w :: rest =>
    if x = i - 1 then some (w :: v :: rest)
    else (scanInsertAux i (x + 1) v rest).map (w :: ·)

/-- Model of `underInsert(this, index, node)`: index 0 prepends by rewriting
`_head`; `index ≥ 1` runs the scan loop.  No branch ever touches
`_tail` — in the model only the positions renumber. -/
def underInsert {α : Type} (s : LState α) (i : Int) (v : α) : LState α :=
  if i = 0 then
    ⟨v :: s.chain,
      (match s.tailPos with
       | .inChain k => .inChain (k + 1)
       | t => t),
      s.length + 1⟩
  else
    match scanInsertAux i 0 v s.chain with
    | none => s
    | some c =>
      ⟨c,
        (match s.tailPos with
         | .inChain m => if i.toNat ≤ m then .inChain (m + 1) else .inChain m
         | t => t),
        s.length + 1⟩

/-- Model of `insert(this, index, ...)` on a non-NULL list: rejects
`index < 0 || index > len(this)` (the `_length` counter) with an error
message and no change, then every `va_arg` branch calls `underInsert`
with a fresh node. -/
def insert {α : Type} (s : LState α) (i : Int) (v : α) : LState α :=
  if i < 0 ∨ s.length < i then s
  else underInsert s i v

/-- Model of `len(this)`, taking the possibly-NULL `List` pointer: the NULL check
only prints a message and then `return this->_length` executes anyway —
a NULL-pointer read. -/
def len {α : Type} (o : Option (LState α)) : Except CErr Int :=
  match o with
  | none => .error .ub
  | some s => .ok s.length

/-- Model of `destroyList(this)` (the `free` method) on a non-NULL list: frees
every node and resets head, tail and length. -/
def destroyList {α : Type} (_s : LState α) : LState α := newListState α

/-!  The iterator (`src/Titerator.c`).  A `struct TIterator` holds the
`_list` pointer, the `_current` node pointer and the `_index` counter.
`next` and `hasNext` never write through `_list` or through the nodes, so
the iterator is modelled by the list state it was created on (carried
through unchanged), the chain suffix reachable from `_current`, and the
counter.  The claims about iteration assume the list is not mutated while
the iterator is alive, matching this snapshot reading. -/

/-- State of a (non-NULL) `struct TIterator`. -/
structure TIterState (α : Type) where
  lst : LState α
  current : List α
  index : Int
deriving DecidableEq

/-- Model of `newIterator(list)`, taking the possibly-NULL `List` pointer: a NULL
list makes the constructor `exit(EXIT_FAILURE)`; otherwise `_current`
starts at the list's head and `_index` at 0. -/
def newIterator {α : Type} (o : Option (LState α)) : Except CErr (TIterState α) :=
  match o with
  | none => .error .fatal
  | some s => .ok ⟨s, s.chain, 0⟩

/-- Model of `next(iterator)`: on an exhausted cursor (`_current == NULL`) it
prints a message and returns NULL, changing nothing; otherwise it
returns the current node's value, increments `_index` and advances
`_current`. -/
def next {α : Type} (it : TIterState α) : Option α × TIterState α :=
  match it.current with
  | [] => (none, it)
  | v :: rest => (some v, ⟨it.lst, rest, it.index + 1⟩)

/-- Model of `hasNext(iterator)`: true iff `_current != NULL`. -/
def hasNext {α : Type} (it : TIterState α) : Bool :=
  !it.current.isEmpty

/-- Apply `next` `n` times, keeping only the final iterator state. -/
def advanceIt {α : Type} (it : TIterState α) : Nat → TIterState α
  | 0 => it
  | n + 1 => advanceIt (next it).2 n

/-- Apply `next` `n` times, collecting the returned values. -/
def collectNexts {α : Type} (it : TIterState α) : Nat → List (Option α) × TIterState α
  | 0 => ([], it)
  | n + 1 =>
    let p := next it
    let q := collectNexts p.2 n
    (p.1 :: q.1, q.2)

/-- Push each value of `vs` in turn (`push` in a loop). -/
def pushAll {α : Type} (s : LState α) : List α → Except CErr (LState α)
  | [] => .ok s
  | v :: vs =>
    match underPush s v with
    | .ok s' => pushAll s' vs
    | .error e => .error e

/-- Pop `n` times, collecting the returned values. -/
def drain {α : Type} (s : LState α) : Nat → List (Option α) × LState α
  | 0 => ([], s)
  | n + 1 =>
    let p := pop s
    let q := drain p.2 n
    (p.1 :: q.1, q.2)

/-- The `_tail` position of a well-formed chain: NULL on the empty chain,
the last chain position otherwise. -/
def tailOf {α : Type} (c : List α) : TailPos :=
  if c.isEmpty then .null else .inChain (c.length - 1)

/-- The representation invariant stated by the spec: the `_length`
counter counts the reachable nodes and `_tail` points at the last
reachable node (NULL on an empty list). -/
def Wf {α : Type} (s : LState α) : Prop :=
  s.length = s.chain.length ∧ s.tailPos = tailOf s.chain

instance {α : Type} [DecidableEq α] (s : LState α) : Decidable (Wf s) := by
  unfold Wf; infer_instance

/-!  Memory-level model for `duplicate` (`src/Tlist.c`).

Aliasing between a list and its duplicate cannot be observed in the
value-level model, so `duplicate` and `set` are additionally modelled one
level lower.  `Mem V` is the allocator state: a bump pointer `next` and
the contents of every cell address.  `free` is modelled as forgetting the
address (contents kept, never reused).  An owning-kind list (`INT`,
`FLOAT`, `DOUBLE`, `STRING`) is represented by the addresses of its
nodes' `_val` buffers, in chain order; its element values are the cell
contents at those addresses.  A `T`-kind list stores the caller's
pointers directly in `_val`, so it is represented by the list of those
pointer values themselves. -/

/-- Allocator state: bump pointer and cell contents. -/
structure Mem (V : Type) where
  next : Nat
  store : Nat → V

/-- Model of `malloc` followed by a write: returns a fresh address holding `v`. -/
def Mem.alloc {V : Type} (m : Mem V) (v : V) : Nat × Mem V :=
  (m.next, ⟨m.next + 1, Function.update m.store m.next v⟩)

/-- Model of `duplicate(this)` on an owning-kind list: iterate the source nodes;
for each one, `next` hands back the address of the node's `_val` buffer,
and `push`/`newNode` allocates a fresh buffer holding a copy of its
contents. -/
def dupOwned {V : Type} (cells : List Nat) (m : Mem V) : List Nat × Mem V :=
  match cells with
  | [] => ([], m)
  | a :: rest =>
    let p := m.alloc (m.store a)
    let q := dupOwned rest p.2
    (p.1 :: q.1, q.2)

/-- Model of `duplicate(this)` on a `T`-kind list: `next` hands back the stored
pointer itself and `push` stores that pointer directly in the new node. -/
def dupT (ptrs : List Nat) : List Nat :=
  match ptrs with
  | [] => []
  | p :: rest => p :: dupT rest

/-- The scan loop of `set` at memory level: the address of the `_val`
buffer of the node at which `x == index`. -/
def scanCellAux (i x : Int) : List Nat → Option Nat
  | [] => none
  | a :: rest => if x = i then some a else scanCellAux i (x + 1) rest

/-- Model of `set(this, index, ...)` at memory level for the fixed-width owning
kinds (`INT`, `FLOAT`, `DOUBLE`): `memcpy` of the new value into the
target node's existing `_val` buffer. -/
def setOwnedFixed {V : Type} (cells : List Nat) (m : Mem V) (i : Int) (v : V) : Mem V :=
  if i < 0 then m
  else
    match scanCellAux i 0 cells with
    | none => m
    | some a => ⟨m.next, Function.update m.store a v⟩

/-- The chain rewrite performed by `set` on a `STRING` list: the target
node's `_val` is freed and replaced by a fresh buffer. -/
def replaceCellAux (i x : Int) (fresh : Nat) : List Nat → List Nat
  | [] => []
  | a :: rest => if x = i then fresh :: rest else a :: replaceCellAux i (x + 1) fresh rest

/-- Model of `set(this, index, chr)` at memory level for the `STRING` kind with a
non-NULL source: the old buffer is freed and a fresh one allocated and
filled. -/
def setOwnedString {V : Type} (cells : List Nat) (m : Mem V) (i : Int) (v : V) :
    List Nat × Mem V :=
  if i < 0 then (cells, m)
  else
    match scanCellAux i 0 cells with
    | none => (cells, m)
    | some _ =>
      let p := m.alloc v
      (replaceCellAux i 0 p.1 cells, p.2)

/-!  Helper lemmas: the up-counting scan loops, re-expressed through the
offset `(i - x)` into the remaining chain. -/

theorem scanGetAux_eq {α : Type} (l : List α) :
    ∀ i x : Int, 0 ≤ x → x ≤ i → scanGetAux i x l = l.get? (i - x).toNat := by
  induction l with
  | nil => intro i x _ _; simp [scanGetAux]
  | cons v rest ih =>
    intro i x hx hxi
    by_cases h : x = i
    · subst h
      simp [scanGetAux]
    · have h1 : (i - x).toNat = (i - (x + 1)).toNat + 1 := by omega
      simp only [scanGetAux, if_neg h, h1, List.get?_cons_succ]
      exact ih i (x + 1) (by omega) (by omega)

theorem scanDeleteAux_eq {α : Type} (l : List α) :
    ∀ i x : Int, 0 ≤ x → x ≤ i - 1 →
      scanDeleteAux i x l = (l.get? (i - x).toNat).map (fun _ => l.eraseIdx (i - x).toNat) := by
  induction l with
  | nil => intro i x _ _; simp [scanDeleteAux]
  | cons w rest ih =>
    intro i x hx hxi
    by_cases h : x = i - 1
    · have h1 : (i - x).toNat = 1 := by omega
      cases rest with
      | nil => simp [scanDeleteAux, if_pos h, h1]
      | cons t rest2 => simp [scanDeleteAux, if_pos h, h1, List.eraseIdx]
    · have h1 : (i - x).toNat = (i - (x + 1)).toNat + 1 := by omega
      simp only [scanDeleteAux, if_neg h, h1, List.get?_cons_succ, List.eraseIdx_cons_succ]
      rw [ih i (x + 1) (by omega) (by omega)]
      cases rest.get? (i - (x + 1)).toNat <;> simp

theorem scanPickAux_eq {α : Type} (l : List α) :
    ∀ i x : Int, 0 ≤ x → x ≤ i - 1 →
      scanPickAux i x l
        = (l.get? (i - x).toNat).map (fun v => (v, l.eraseIdx (i - x).toNat)) := by
  induction l with
  | nil => intro i x _ _; simp [scanPickAux]
  | cons w rest ih =>
    intro i x hx hxi
    by_cases h : x = i - 1
    · have h1 : (i - x).toNat = 1 := by omega
      cases rest with
      | nil => simp [scanPickAux, if_pos h, h1]
      | cons t rest2 => simp [scanPickAux, if_pos h, h1, List.eraseIdx]
    · have h1 : (i - x).toNat = (i - (x + 1)).toNat + 1 := by omega
      simp only [scanPickAux, if_neg h, h1, List.get?_cons_succ, List.eraseIdx_cons_succ]
      rw [ih i (x + 1) (by omega) (by omega)]
      cases rest.get? (i - (x + 1)).toNat <;> simp

/-- Claim C4: for every well-formed list and every in-range index `i`,
`pick(i)` has the same resulting list state and returned value as
`get(i)` followed by `remove(i)`; and `pick(0)` literally delegates to
`pop`, on every list including the empty one.  (Freeing of the removed
node's value by `remove`, versus transfer of its ownership by `pick`, is
below the value level of this model.) -/
theorem pick_is_get_then_delete (α : Type) (s t : LState α) (i : Int)
    (hw : Wf s) (h0 : 0 ≤ i) (hi : i < s.length) :
    (delete s i).map (fun s' => (get s i, s')) = .ok (pick s i)
  ∧ pick t 0 = pop t := by
  constructor
  · have hlen : s.length = s.chain.length := hw.1
    by_cases hz : i = 0
    · subst hz
      obtain ⟨v, rest, hc⟩ : ∃ v rest, s.chain = v :: rest := by
        cases hcc : s.chain with
        | nil => exfalso; rw [hcc] at hlen; simp at hlen; omega
        | cons v rest => exact ⟨v, rest, rfl⟩
      simp [delete, pick, pop, get, scanGetAux, hc, Except.map]
    · have hpos : 0 < i := lt_of_le_of_ne h0 (Ne.symm hz)
      have hget : get s i = scanGetAux i 0 s.chain := by
        simp [get, not_lt.mpr h0]
      rw [scanGetAux_eq s.chain i 0 le_rfl h0] at hget
      have hdel := scanDeleteAux_eq s.chain i 0 le_rfl (by omega)
      have hpick := scanPickAux_eq s.chain i 0 le_rfl (by omega)
      rw [show i - 0 = i by ring] at hget hdel hpick
      cases hv : s.chain.get? i.toNat with
      | none =>
        rw [hv] at hget hdel hpick
        simp only [Option.map_none'] at hdel hpick
        simp [delete, pick, not_lt.mpr h0, hz, hdel, hpick, hget, Except.map]
      | some v =>
        rw [hv] at hget hdel hpick
        simp only [Option.map_some'] at hdel hpick
        simp [delete, pick, not_lt.mpr h0, hz, hdel, hpick, hget, Except.map]
  · simp [pick, pop]

/-- Witness for `pick_is_get_then_delete` at the well-formed `INT` list
`[1, 2, 3]` and index 1. -/
theorem pick_is_get_then_delete_witness :
    (Wf (⟨[1, 2, 3], TailPos.inChain 2, 3⟩ : LState Int)
      ∧ (0 : Int) ≤ 1 ∧ (1 : Int) < (3 : Int))
  ∧ ((delete (⟨[1, 2, 3], TailPos.inChain 2, 3⟩ : LState Int) 1).map
        (fun s' => (get (⟨[1, 2, 3], TailPos.inChain 2, 3⟩ : LState Int) 1, s'))
      = .ok (pick (⟨[1, 2, 3], TailPos.inChain 2, 3⟩ : LState Int) 1)
    ∧ pick (⟨[9], TailPos.inChain 0, 1⟩ : LState Int) 0
        = pop (⟨[9], TailPos.inChain 0, 1⟩ : LState Int)) :=
  ⟨⟨by decide, by decide, by decide⟩,
    pick_is_get_then_delete Int ⟨[1, 2, 3], TailPos.inChain 2, 3⟩
      ⟨[9], TailPos.inChain 0, 1⟩ 1 (by decide) (by decide) (by decide)⟩

/-!  Helper lemmas for push/pop sequences on well-formed states. -/

theorem underPush_wf {α : Type} (c : List α) (n : Int) (v : α) :
    underPush ⟨c, tailOf c, n⟩ v = .ok ⟨c ++ [v], tailOf (c ++ [v]), n + 1⟩ := by
  cases c with
  | nil => rfl
  | cons w rest =>
    have ht : tailOf (w :: rest) = .inChain rest.length := by
      simp [tailOf]
    have ht2 : tailOf ((w :: rest) ++ [v]) = .inChain (rest.length + 1) := by
      simp [tailOf]
    have htake : (w :: rest).take (rest.length + 1) = w :: rest := by
      have h := List.take_length (l := w :: rest)
      simp only [List.length_cons] at h
      exact h
    simp only [underPush, ht, ht2, htake]

theorem pushAll_wf {α : Type} (vs : List α) :
    ∀ (c : List α) (n : Int),
      pushAll ⟨c, tailOf c, n⟩ vs = .ok ⟨c ++ vs, tailOf (c ++ vs), n + vs.length⟩ := by
  induction vs with
  | nil => intro c n; simp [pushAll]
  | cons v vs ih =>
    intro c n
    simp only [pushAll, underPush_wf]
    rw [ih (c ++ [v]) (n + 1)]
    have h1 : c ++ [v] ++ vs = c ++ v :: vs := by simp
    have h2 : n + 1 + (vs.length : Int) = n + ((v :: vs).length : Int) := by
      simp [List.length_cons]; ring
    rw [h1, h2]

theorem pop_wf {α : Type} (v : α) (rest : List α) :
    pop ⟨v :: rest, tailOf (v :: rest), ((rest.length + 1 : Nat) : Int)⟩
      = (some v, ⟨rest, tailOf rest, (rest.length : Int)⟩) := by
  have ht : tailOf (v :: rest) = .inChain rest.length := by simp [tailOf]
  have hl : ((rest.length + 1 : Nat) : Int) - 1 = (rest.length : Int) := by
    push_cast; ring
  cases rest with
  | nil => simp [pop, ht, tailAfterHeadRemoval, tailOf, hl]
  | cons t rest2 =>
    have ht2 : tailOf (t :: rest2) = .inChain rest2.length := by simp [tailOf]
    simp [pop, ht, tailAfterHeadRemoval, ht2, hl]

theorem drain_wf {α : Type} (c : List α) :
    drain ⟨c, tailOf c, (c.length : Int)⟩ c.length
      = (c.map some, ⟨[], TailPos.null, 0⟩) := by
  induction c with
  | nil => simp [drain, tailOf]
  | cons v rest ih =>
    simp only [List.length_cons, drain, pop_wf v rest, List.map_cons]
    rw [ih]

/-- Claim C5: `n` pushes on a fresh empty list followed by `n` pops
return the pushed values in FIFO (insertion) order, after which the list
is the empty list again (`_length == 0`, head and tail NULL) and one
further `pop` returns the absent result, not an error. -/
theorem push_then_pop_is_fifo (α : Type) (vs : List α) :
    (pushAll (newListState α) vs).map (fun S => drain S vs.length)
      = .ok (vs.map some, newListState α)
  ∧ pop (newListState α) = (none, newListState α) := by
  constructor
  · have h0 : newListState α = ⟨([] : List α), tailOf ([] : List α), (0 : Int)⟩ := by
      simp [newListState, tailOf]
    rw [h0, pushAll_wf vs [] 0]
    have h1 : (0 : Int) + (vs.length : Int) = (vs.length : Int) := by ring
    simp only [List.nil_append, h1, Except.map]
    rw [drain_wf vs]
    simp [newListState, tailOf]
  · rfl

/-!  Helper lemmas for the iterator. -/

theorem collectNexts_all {α : Type} (c : List α) :
    ∀ (L : LState α) (idx : Int),
      collectNexts ⟨L, c, idx⟩ c.length
        = (c.map some, ⟨L, [], idx + c.length⟩) := by
  induction c with
  | nil => intro L idx; simp [collectNexts]
  | cons v rest ih =>
    intro L idx
    simp only [List.length_cons, collectNexts, next, List.map_cons]
    rw [ih L (idx + 1)]
    have h : idx + 1 + (rest.length : Int) = idx + ((rest.length + 1 : Nat) : Int) := by
      push_cast; ring
    rw [h]

theorem hasNext_advanceIt {α : Type} :
    ∀ (k : Nat) (c : List α) (L : LState α) (idx : Int),
      hasNext (advanceIt ⟨L, c, idx⟩ k) = !(c.drop k).isEmpty := by
  intro k
  induction k with
  | zero => intro c L idx; simp [advanceIt, hasNext]
  | succ k ih =>
    intro c L idx
    cases c with
    | nil => simp [advanceIt, next, ih]
    | cons v rest => simp [advanceIt, next, ih]

/-- Claim C6: an iterator created on a list of `n` elements yields
exactly those `n` values, in insertion order, from its first `n` calls
to `next()`; the `(n+1)`-th `next()` reports exhaustion; `hasNext()` is
true before each of the first `n` calls and false from the `(n+1)`-th
query on.  The underlying list is not mutated during iteration, matching
the claim's assumption. -/
theorem iterator_yields_n_values_in_order (α : Type) (c : List α) (L : LState α) :
    (collectNexts ⟨L, c, 0⟩ c.length).1 = c.map some
  ∧ (next (collectNexts ⟨L, c, 0⟩ c.length).2).1 = none
  ∧ (∀ k : Fin c.length, hasNext (advanceIt ⟨L, c, 0⟩ k.1) = true)
  ∧ (∀ m : Nat, hasNext (advanceIt ⟨L, c, 0⟩ (c.length + m)) = false) := by
  refine ⟨?_, ?_, ?_, ?_⟩
  · rw [collectNexts_all]
  · rw [collectNexts_all]
    rfl
  · intro k
    rw [hasNext_advanceIt]
    have h1 : (c.drop k.1).length ≠ 0 := by
      rw [List.length_drop]
      have := k.isLt
      omega
    cases hd : c.drop k.1 with
    | nil => rw [hd] at h1; simp at h1
    | cons a l => simp [hd]
  · intro m
    rw [hasNext_advanceIt]
    have h1 : c.drop (c.length + m) = [] := List.drop_eq_nil_of_le (by omega)
    simp [h1]

/-!  Helper lemmas for the memory-level model of `duplicate`. -/

theorem dupOwned_next_le {V : Type} (cells : List Nat) :
    ∀ m : Mem V, m.next ≤ (dupOwned cells m).2.next := by
  induction cells with
  | nil => intro m; exact le_rfl
  | cons a rest ih =>
    intro m
    simp only [dupOwned, Mem.alloc]
    have h2 : m.next + 1
        ≤ (dupOwned rest
            (⟨m.next + 1, Function.update m.store m.next (m.store a)⟩ : Mem V)).2.next :=
      ih (⟨m.next + 1, Function.update m.store m.next (m.store a)⟩ : Mem V)
    omega

theorem dupOwned_store_preserved {V : Type} (cells : List Nat) :
    ∀ (m : Mem V) (a : Nat), a < m.next → (dupOwned cells m).2.store a = m.store a := by
  induction cells with
  | nil => intro m a _; rfl
  | cons b rest ih =>
    intro m a ha
    simp only [dupOwned, Mem.alloc]
    rw [ih _ a (Nat.lt_succ_of_lt ha)]
    exact Function.update_noteq (Nat.ne_of_lt ha) _ _

theorem dupOwned_cells_fresh {V : Type} (cells : List Nat) :
    ∀ (m : Mem V) (a : Nat), a ∈ (dupOwned cells m).1 → m.next ≤ a := by
  induction cells with
  | nil => intro m a h; simp [dupOwned] at h
  | cons b rest ih =>
    intro m a h
    simp only [dupOwned, Mem.alloc, List.mem_cons] at h
    rcases h with h | h
    · omega
    · have h2 : m.next + 1 ≤ a := ih _ a h
      omega

theorem dupOwned_copies {V : Type} (cells : List Nat) :
    ∀ m : Mem V, (∀ a ∈ cells, a < m.next) →
      (dupOwned cells m).1.map (dupOwned cells m).2.store = cells.map m.store := by
  induction cells with
  | nil => intro m _; rfl
  | cons b rest ih =>
    intro m hv
    simp only [dupOwned, Mem.alloc, List.map_cons]
    have h1 : (dupOwned rest
          (⟨m.next + 1, Function.update m.store m.next (m.store b)⟩ : Mem V)).2.store m.next
        = m.store b := by
      rw [dupOwned_store_preserved rest _ m.next (Nat.lt_succ_self _)]
      exact Function.update_same _ _ _
    have hih := ih (⟨m.next + 1, Function.update m.store m.next (m.store b)⟩ : Mem V)
      (fun a ha => Nat.lt_succ_of_lt (hv a (List.mem_cons_of_mem _ ha)))
    have hmap : rest.map (Function.update m.store m.next (m.store b)) = rest.map m.store := by
      apply List.map_congr_left
      intro a ha
      exact Function.update_noteq (Nat.ne_of_lt (hv a (List.mem_cons_of_mem _ ha))) _ _
    rw [h1, hih]
    rw [show ((⟨m.next + 1, Function.update m.store m.next (m.store b)⟩ : Mem V).store)
        = Function.update m.store m.next (m.store b) from rfl]
    rw [hmap]

theorem scanCellAux_mem (cells : List Nat) :
    ∀ (i x : Int) (a : Nat), scanCellAux i x cells = some a → a ∈ cells := by
  induction cells with
  | nil => intro i x a h; simp [scanCellAux] at h
  | cons b rest ih =>
    intro i x a h
    simp only [scanCellAux] at h
    by_cases hx : x = i
    · rw [if_pos hx] at h
      simp only [Option.some.injEq] at h
      simp [h]
    · rw [if_neg hx] at h
      exact List.mem_cons_of_mem _ (ih i (x + 1) a h)

theorem setOwnedFixed_store_low {V : Type} (dcells : List Nat) (m1 : Mem V) (i : Int)
    (w : V) (bound : Nat) (hb : ∀ a ∈ dcells, bound ≤ a) (a : Nat) (ha : a < bound) :
    (setOwnedFixed dcells m1 i w).store a = m1.store a := by
  unfold setOwnedFixed
  by_cases h : i < 0
  · rw [if_pos h]
  · rw [if_neg h]
    cases hs : scanCellAux i 0 dcells with
    | none => rfl
    | some ad =>
      have hle : bound ≤ ad := hb ad (scanCellAux_mem dcells i 0 ad hs)
      exact Function.update_noteq (by omega) _ _

theorem setOwnedString_store_low {V : Type} (dcells : List Nat) (m1 : Mem V) (i : Int)
    (w : V) (a : Nat) (ha : a < m1.next) :
    (setOwnedString dcells m1 i w).2.store a = m1.store a := by
  unfold setOwnedString
  by_cases h : i < 0
  · rw [if_pos h]
  · rw [if_neg h]
    cases hs : scanCellAux i 0 dcells with
    | none => rfl
    | some ad =>
      simp only [Mem.alloc]
      exact Function.update_noteq (by omega) _ _

theorem dupT_eq (ptrs : List Nat) : dupT ptrs = ptrs := by
  induction ptrs with
  | nil => rfl
  | cons p rest ih => simp [dupT, ih]

/-- Claim C7: `duplicate` on an owning-kind list (`INT`, `STRING`,
`FLOAT`, `DOUBLE`) produces a list with an equal element sequence whose
node buffers are all freshly allocated, so `set` on the duplicate —
whether the fixed-width `memcpy` overwrite or the STRING free-and-
reallocate overwrite — changes no element value of the original; on a
`T`-kind list, `duplicate` stores exactly the original's pointers.  The
hypothesis says every buffer of the original was allocated (its address
is below the allocator's bump pointer). -/
theorem duplicate_deep_for_owned_shallow_for_T (V : Type) (cells ptrs : List Nat)
    (m : Mem V) (i : Int) (w : V) (hv : ∀ a ∈ cells, a < m.next) :
    (dupOwned cells m).1.map (dupOwned cells m).2.store = cells.map m.store
  ∧ cells.map (setOwnedFixed (dupOwned cells m).1 (dupOwned cells m).2 i w).store
      = cells.map m.store
  ∧ cells.map (setOwnedString (dupOwned cells m).1 (dupOwned cells m).2 i w).2.store
      = cells.map m.store
  ∧ dupT ptrs = ptrs := by
  refine ⟨dupOwned_copies cells m hv, ?_, ?_, dupT_eq ptrs⟩
  · apply List.map_congr_left
    intro a ha
    rw [setOwnedFixed_store_low (dupOwned cells m).1 (dupOwned cells m).2 i w m.next
      (fun b hb => dupOwned_cells_fresh cells m b hb) a (hv a ha)]
    exact dupOwned_store_preserved cells m a (hv a ha)
  · apply List.map_congr_left
    intro a ha
    have hlt : a < (dupOwned cells m).2.next :=
      lt_of_lt_of_le (hv a ha) (dupOwned_next_le cells m)
    rw [setOwnedString_store_low (dupOwned cells m).1 (dupOwned cells m).2 i w a hlt]
    exact dupOwned_store_preserved cells m a (hv a ha)

/-- Witness for `duplicate_deep_for_owned_shallow_for_T`: the original
list has buffers 0 and 1, the allocator bump pointer is 2, every cell
holds 7, the duplicate is mutated at index 0 with value 42, and the
`T`-kind pointer list is `[5, 9]`. -/
theorem duplicate_deep_for_owned_shallow_for_T_witness :
    (∀ a ∈ [0, 1], a < (⟨2, fun _ => (7 : Int)⟩ : Mem Int).next)
  ∧ ((dupOwned [0, 1] (⟨2, fun _ => (7 : Int)⟩ : Mem Int)).1.map
        (dupOwned [0, 1] (⟨2, fun _ => (7 : Int)⟩ : Mem Int)).2.store
      = [0, 1].map (⟨2, fun _ => (7 : Int)⟩ : Mem Int).store
    ∧ [0, 1].map (setOwnedFixed (dupOwned [0, 1] (⟨2, fun _ => (7 : Int)⟩ : Mem Int)).1
          (dupOwned [0, 1] (⟨2, fun _ => (7 : Int)⟩ : Mem Int)).2 0 42).store
      = [0, 1].map (⟨2, fun _ => (7 : Int)⟩ : Mem Int).store
    ∧ [0, 1].map (setOwnedString (dupOwned [0, 1] (⟨2, fun _ => (7 : Int)⟩ : Mem Int)).1
          (dupOwned [0, 1] (⟨2, fun _ => (7 : Int)⟩ : Mem Int)).2 0 42).2.store
      = [0, 1].map (⟨2, fun _ => (7 : Int)⟩ : Mem Int).store
    ∧ dupT [5, 9] = [5, 9]) :=
  ⟨by decide,
    duplicate_deep_for_owned_shallow_for_T Int [0, 1] [5, 9]
      (⟨2, fun _ => (7 : Int)⟩ : Mem Int) 0 42 (by decide)⟩

/-- Claim C1: the spec's representation invariant (length counts the
reachable nodes, tail is the last reachable node, head and tail NULL
exactly on length 0) is claimed for every state reachable by public
operations.  The code refutes it: `underInsert` never updates `_tail`,
so one `insert(0, 5)` on a freshly created `INT` list reaches a state
with `_length == 1` and a non-NULL head but a NULL `_tail`. -/
theorem insert_zero_empty_breaks_tail_invariant :
    insert (newListState Int) 0 5
      = ⟨[5], TailPos.null, 1⟩ := by
  decide

/-- Claim C2: `insert(len, v)` is claimed observationally identical to
`push(v)`, including under a following `push`.  The code refutes it:
on the `INT` list `[10]`, `insert(1, 20)` (index == len) links the node
but leaves `_tail` at node 10, so a following `push(30)` overwrites the
link to 20 — the reachable list becomes `[10, 30]` with `_length == 3` —
whereas `push(20)` then `push(30)` yields `[10, 20, 30]`. -/
theorem insert_at_len_not_push_equivalent :
    ((underPush (newListState Int) 10).bind fun s =>
        underPush (insert s 1 20) 30)
      = .ok ⟨[10, 30], TailPos.inChain 1, 3⟩
  ∧ ((underPush (newListState Int) 10).bind fun s =>
        (underPush s 20).bind fun s' => underPush s' 30)
      = .ok ⟨[10, 20, 30], TailPos.inChain 2, 3⟩ := by
  exact ⟨rfl, rfl⟩

/-- Claim C3: every out-of-range index operation is claimed to report an
error and leave the list unchanged without crashing.  The code refutes
it at one point: `delete` (the `remove` method) special-cases index 0
without checking for an empty list and reads `temp->_nextNode` from the
NULL head — undefined behaviour — whereas every other out-of-range
`get`/`set`/`remove`/`pick`/`insert` path only prints an error. -/
theorem delete_zero_on_empty_list_is_ub :
    delete (newListState Int) 0 = .error CErr.ub := rfl

/-- Claim C8: calling accessors on a NULL list is claimed recoverable
without reading through the NULL pointer.  The code refutes it for
`len`: the NULL check only prints a message, after which
`return this->_length` dereferences the NULL pointer anyway. -/
theorem len_on_null_list_reads_through_null :
    len (none : Option (LState Int)) = .error CErr.ub := rfl

/-- Claim C9: every operation storing a String is claimed to detect a
NULL `char *` source and halt fatally before mutating anything.  This
holds for `push` and `insert` (`newNode` checks and exits), but the code
refutes it for `set`: on the STRING list `["a"]`, `set(0, NULL)` frees
the old buffer and then calls `strlen(NULL)` — undefined behaviour,
after a mutation. -/
theorem set_null_string_source_is_unchecked :
    pushCString (newListState String) none = .error CErr.fatal
  ∧ underPush (newListState String) "a"
      = .ok ⟨["a"], TailPos.inChain 0, 1⟩
  ∧ setCString ⟨["a"], TailPos.inChain 0, 1⟩ 0 none = .error CErr.ub := by
  exact ⟨rfl, rfl, rfl⟩

/-- Claim C10: `next()` on an exhausted iterator returns the empty
result and leaves the iterator's position and index counter — and the
underlying list — unchanged, so `hasNext()` stays false and repeated
`next()` calls keep returning the empty result. -/
theorem next_on_exhausted_iterator_is_noop (α : Type) (L : LState α) (idx : Int) :
    next (⟨L, [], idx⟩ : TIterState α) = (none, ⟨L, [], idx⟩)
  ∧ hasNext (⟨L, [], idx⟩ : TIterState α) = false
  ∧ (next (next (⟨L, [], idx⟩ : TIterState α)).2).1 = none := by
  exact ⟨rfl, rfl, rfl⟩

end Tlist
